import Mathlib

/-!
Verification of the sorted-table search and interpolation utilities of
`pyems/utilities.py`: `array_index`, `sort_table_by_col`,
`table_insertion_idx`, `interp_lin` and `table_interp_val`.

Numeric values are modelled as rationals (exact arithmetic), a numpy
2-D array as a list of rows, and Python exceptions as an explicit
error type.  Python sequence indexing (negative indices count from the
end, out-of-range indexing raises `IndexError`) is modelled by
`pyIdx`/`pyGet`.
-/

namespace Pyems

/-- Python exception outcomes the utilities can produce, plus the
`DegenerateInterval` error of the design's error taxonomy, which the
source code never raises. -/
inductive PyErr where
  | valueError
  | indexError
  | zeroDivisionError
  | degenerateInterval
  deriving DecidableEq, Repr

/-- Python sequence index normalization: a nonnegative index must be
below the length, a negative index counts from the end of the
sequence; anything else is an `IndexError` (`none`). -/
def pyIdx (n : Nat) (i : Int) : Option Nat :=
  if 0 ≤ i then
    if i < (n : Int) then some i.toNat else none
  else
    if 0 ≤ i + (n : Int) then some (i + (n : Int)).toNat else none

/-- Evaluate `l[i]` with Python index semantics. -/
def pyGet {α : Type} (l : List α) (i : Int) : Option α :=
  (pyIdx l.length i).bind fun k => l[k]?

/-- Evaluate `arr[i][col]`: row selected by a Python index, column by
a nonnegative machine index. -/
def cell? (arr : List (List ℚ)) (i : Int) (col : Nat) : Option ℚ :=
  (pyGet arr i).bind fun row => row[col]?

/-- Evaluate `arr[i][q]` where the column subscript is a runtime
numeric value (as in `arr[-1][sel_val]`, line 156 of the source): an
integral value acts as a Python index, a non-integral number raises. -/
def cellQ? (arr : List (List ℚ)) (i : Int) (q : ℚ) : Option ℚ :=
  (pyGet arr i).bind fun row => if q.den = 1 then pyGet row q.num else none

/-- Chain an optional lookup into an erroring computation: a missing
index raises `IndexError`. -/
def obind {α β : Type} (o : Option α) (f : α → Except PyErr β) : Except PyErr β :=
  match o with
  | none => Except.error PyErr.indexError
  | some a => f a

/-- The `while lo < hi` loop of `bisect.bisect_left`, written with a
fuel argument so that it is structurally recursive; `hi - lo` shrinks
at every iteration, so any fuel of at least `hi - lo` yields the exact
CPython result. -/
def bisectLoop (a : List ℚ) (x : ℚ) : Nat → Nat → Nat → Nat
  | 0, lo, _ => lo
  | fuel + 1, lo, hi =>
    if lo < hi then
      let mid := (lo + hi) / 2
      if a.getD mid 0 < x then bisectLoop a x fuel (mid + 1) hi
      else bisectLoop a x fuel lo mid
    else lo

/-- `bisect.bisect_left(a, x)` over the whole list; `a.length` fuel
suffices because the search interval halves each step. -/
def bisect_left (a : List ℚ) (x : ℚ) : Nat :=
  bisectLoop a x a.length 0 a.length

/-- `array_index(val, arr)` from `pyems/utilities.py` (lines 58-79):
the nearest-index routine.  Exactly as in the source, `arr[lbound_idx]`
is dereferenced before the length check, and `arr[ubound_idx]` is
dereferenced unconditionally afterwards. -/
def array_index (val : ℚ) (arr : List ℚ) : Except PyErr Nat :=
  let lbound_idx := bisect_left arr val
  obind arr[lbound_idx]? fun lbound =>
  if lbound_idx = arr.length then Except.ok lbound_idx
  else
    let ubound_idx := lbound_idx + 1
    obind arr[ubound_idx]? fun ubound =>
    if val - lbound < ubound - val then Except.ok lbound_idx
    else Except.ok ubound_idx

/-- The numpy column slice `arr[:, col]`: succeeds with the column as
a list when every row has the column, and raises otherwise. -/
def getCol (arr : List (List ℚ)) (col : Nat) : Option (List ℚ) :=
  match arr with
  | [] => some []
  | row :: rest =>
    match row[col]?, getCol rest col with
    | some v, some c => some (v :: c)
    | _, _ => none

/-- `np.argsort` on a 1-D array of keys: a permutation of the index
range that sorts the keys.  Modelled with a merge sort; numpy's
default quicksort is unstable and guarantees only that the returned
indices sort the array, so the order of tied keys is
implementation-defined and only tie-independent consequences of this
definition transfer to the program. -/
def argsort (keys : List ℚ) : List Nat :=
  (List.range keys.length).mergeSort fun i j => decide (keys.getD i 0 ≤ keys.getD j 0)

/-- `sort_table_by_col(arr, col)` (lines 99-103):
`arr[np.argsort(arr[:, col])]`. -/
def sort_table_by_col (arr : List (List ℚ)) (col : Nat) : Option (List (List ℚ)) :=
  (getCol arr col).map fun keys => (argsort keys).map fun i => arr.getD i []

/-- `table_insertion_idx(val, arr, col)` (lines 106-110):
`np.searchsorted(arr[:, col], val)`, whose binary search is the same
left-bisection loop as `bisect_left`. -/
def table_insertion_idx (val : ℚ) (arr : List (List ℚ)) (col : Nat) : Option Nat :=
  (getCol arr col).map fun c => bisect_left c val

/-- `interp_lin(xval, xlow, xhigh, ylow, yhigh)` (lines 113-129).  The
range check raises `ValueError` first; a zero-width x-interval then
raises a raw division-by-zero error at `dy = (yhigh - ylow) / (xhigh -
xlow)`.  No `DegenerateInterval` error exists in the code. -/
def interp_lin (xval xlow xhigh ylow yhigh : ℚ) : Except PyErr ℚ :=
  if xval < xlow ∨ xval > xhigh then Except.error PyErr.valueError
  else if xhigh - xlow = 0 then Except.error PyErr.zeroDivisionError
  else Except.ok (ylow + (yhigh - ylow) / (xhigh - xlow) * (xval - xlow))

/-- Lines 153-164 of `table_interp_val`: the exact-match shortcuts
(including the `arr[-1][sel_val]` subscript of line 156, which indexes
the last row by the selection value itself) followed by interpolation
between rows `ins_idx - 1` and `ins_idx`. -/
def table_interp_rest (arr : List (List ℚ)) (target_col : Nat) (sel_val : ℚ)
    (sel_col : Nat) : Except PyErr ℚ :=
  obind (cell? arr 0 sel_col) fun k0 =>
  if sel_val = k0 then obind (cell? arr 0 target_col) Except.ok
  else
    obind (cell? arr (-1) sel_col) fun kl =>
    if sel_val = kl then obind (cellQ? arr (-1) sel_val) Except.ok
    else
      obind (table_insertion_idx sel_val arr sel_col) fun ins_idx =>
      obind (cell? arr ((ins_idx : Int) - 1) sel_col) fun xlow =>
      obind (cell? arr (ins_idx : Int) sel_col) fun xhigh =>
      obind (cell? arr ((ins_idx : Int) - 1) target_col) fun ylow =>
      obind (cell? arr (ins_idx : Int) target_col) fun yhigh =>
      interp_lin sel_val xlow xhigh ylow yhigh

/-- `table_interp_val(arr, target_col, sel_val, sel_col,
permit_outside)` (lines 132-164). -/
def table_interp_val (arr : List (List ℚ)) (target_col : Nat) (sel_val : ℚ)
    (sel_col : Nat) (permit_outside : Bool) : Except PyErr ℚ :=
  if permit_outside then
    obind (cell? arr 0 sel_col) fun k0 =>
    if sel_val < k0 then obind (cell? arr 0 target_col) Except.ok
    else
      obind (cell? arr (-1) sel_col) fun kl =>
      if sel_val > kl then obind (cell? arr (-1) target_col) Except.ok
      else table_interp_rest arr target_col sel_val sel_col
  else table_interp_rest arr target_col sel_val sel_col

@[simp] theorem obind_some {α β : Type} (a : α) (f : α → Except PyErr β) :
    obind (some a) f = f a := rfl

@[simp] theorem obind_none {α β : Type} (f : α → Except PyErr β) :
    obind (none : Option α) f = Except.error PyErr.indexError := rfl

/-- C1: on the spec's own example table, `sel_val = 20` equals the last
row's selection value, and line 156 evaluates `arr[-1][sel_val]`,
subscripting the two-element last row at position 20: an `IndexError`,
not the last row's target value 400. -/
theorem table_interp_val_last_row_defect :
    table_interp_val [[0, 0], [10, 100], [20, 400]] 1 20 0 false
      = Except.error PyErr.indexError := by
  rfl

/-- C2: for `val = 20` past the last element of `[1, 5, 10]`,
`bisect_left` returns 3 and line 69 dereferences `arr[3]` before the
length check on line 70 can run: an `IndexError`, not index 2. -/
theorem array_index_above_last_defect :
    array_index 20 [1, 5, 10] = Except.error PyErr.indexError := by
  rfl

/-- C3: with a zero-width interval `xlow = xhigh = 0` and `xval = 0`
inside it, `interp_lin` reaches the division `dy = (yhigh - ylow) /
(xhigh - xlow)` and raises a raw division-by-zero error; the code has
no `DegenerateInterval` error. -/
theorem interp_lin_zero_span_defect :
    interp_lin 0 0 0 5 7 = Except.error PyErr.zeroDivisionError := by
  unfold interp_lin
  norm_num

/-- C4: for `val = 10`, exactly the last element of `[1, 5, 10]`,
`bisect_left` returns 2 and line 74 dereferences `arr[3]`
unconditionally: an `IndexError`, not index 2. -/
theorem array_index_exact_last_defect :
    array_index 10 [1, 5, 10] = Except.error PyErr.indexError := by
  rfl

/-- C5 counterexample: on the spec's example table with `sel_val = 25`
above the last key and `permit_outside = false`, the code raises
`IndexError` (dereferencing row `ins_idx = 3`), not the out-of-range
`ValueError` that the range check of `interp_lin` raises and that the
design's taxonomy names `OutOfRange`. -/
theorem table_interp_val_above_not_out_of_range :
    table_interp_val [[0, 0], [10, 100], [20, 400]] 1 25 0 false
        = Except.error PyErr.indexError ∧
      (Except.error PyErr.indexError : Except PyErr ℚ)
        ≠ Except.error PyErr.valueError := by
  exact ⟨rfl, by simp⟩

/-- On a valid index, `getD` is plain indexing. -/
theorem getD_eq_getElem_of_lt {α : Type} (l : List α) (i : Nat) (d : α)
    (hi : i < l.length) : l.getD i d = l[i] := by
  rw [List.getD_eq_getElem?_getD, List.getElem?_eq_getElem hi]
  rfl

/-- Monotone access into a `≤`-sorted list of rationals. -/
theorem sorted_getElem_le (a : List ℚ) (hs : a.Sorted (· ≤ ·)) (i j : Nat)
    (hij : i ≤ j) (hi : i < a.length) (hj : j < a.length) : a[i] ≤ a[j] := by
  have := hs.rel_get_of_le (a := ⟨i, hi⟩) (b := ⟨j, hj⟩) hij
  simpa using this

/-- Loop invariant of the left-bisection loop: given enough fuel and a
window whose outside is already classified against `x`, the loop lands
on the boundary between the keys below `x` and the keys at least `x`. -/
theorem bisectLoop_spec (a : List ℚ) (x : ℚ) (hs : a.Sorted (· ≤ ·)) :
    ∀ (fuel lo hi : Nat), lo ≤ hi → hi ≤ a.length → hi - lo ≤ fuel →
      (∀ j, j < lo → ∀ (hj : j < a.length), a[j] < x) →
      (∀ j, hi ≤ j → ∀ (hj : j < a.length), x ≤ a[j]) →
      lo ≤ bisectLoop a x fuel lo hi ∧ bisectLoop a x fuel lo hi ≤ hi ∧
        (∀ j, j < bisectLoop a x fuel lo hi → ∀ (hj : j < a.length), a[j] < x) ∧
        (∀ j, bisectLoop a x fuel lo hi ≤ j → ∀ (hj : j < a.length), x ≤ a[j]) := by
  intro fuel
  induction fuel with
  | zero =>
    intro lo hi hlohi _hhi hfuel hbelow habove
    have heq : lo = hi := by omega
    subst heq
    exact ⟨le_refl _, le_refl _, hbelow, habove⟩
  | succ fuel ih =>
    intro lo hi hlohi hhi hfuel hbelow habove
    by_cases hlt : lo < hi
    · have hmid1 : lo ≤ (lo + hi) / 2 := by omega
      have hmid2 : (lo + hi) / 2 < hi := by omega
      have hmidlen : (lo + hi) / 2 < a.length := lt_of_lt_of_le hmid2 hhi
      have hgetD : a.getD ((lo + hi) / 2) 0 = a[(lo + hi) / 2] := by
        simp [List.getD_eq_getElem?_getD, List.getElem?_eq_getElem hmidlen]
      simp only [bisectLoop, if_pos hlt]
      by_cases hcmp : a.getD ((lo + hi) / 2) 0 < x
      · rw [if_pos hcmp]
        have hbelow2 : ∀ j, j < (lo + hi) / 2 + 1 → ∀ (hj : j < a.length), a[j] < x := by
          intro j hj hjlen
          have hj2 : j ≤ (lo + hi) / 2 := by omega
          calc a[j] ≤ a[(lo + hi) / 2] :=
            sorted_getElem_le a hs j _ hj2 (lt_of_le_of_lt hj2 hmidlen) hmidlen
          _ < x := by rw [← hgetD]; exact hcmp
        obtain ⟨h1, h2, h3, h4⟩ :=
          ih ((lo + hi) / 2 + 1) hi (by omega) hhi (by omega) hbelow2 habove
        exact ⟨by omega, h2, h3, h4⟩
      · rw [if_neg hcmp]
        have habove2 : ∀ j, (lo + hi) / 2 ≤ j → ∀ (hj : j < a.length), x ≤ a[j] := by
          intro j hj hjlen
          have hx : x ≤ a[(lo + hi) / 2] := by rw [← hgetD]; exact not_lt.mp hcmp
          calc x ≤ a[(lo + hi) / 2] := hx
          _ ≤ a[j] := sorted_getElem_le a hs _ j hj hmidlen hjlen
        obtain ⟨h1, h2, h3, h4⟩ :=
          ih lo ((lo + hi) / 2) hmid1 (le_of_lt hmidlen) (by omega) hbelow habove2
        exact ⟨h1, by omega, h3, h4⟩
    · have heq : lo = hi := by omega
      subst heq
      simp only [bisectLoop, if_neg hlt]
      exact ⟨le_refl _, le_refl _, hbelow, habove⟩

/-- Correctness of `bisect_left` on a sorted list: every index below
the result holds a key strictly below `x`, every index at or above it
holds a key at least `x`, and the result is at most the length. -/
theorem bisect_left_spec (a : List ℚ) (x : ℚ) (hs : a.Sorted (· ≤ ·)) :
    bisect_left a x ≤ a.length ∧
      (∀ j, j < bisect_left a x → ∀ (hj : j < a.length), a[j] < x) ∧
      (∀ j, bisect_left a x ≤ j → ∀ (hj : j < a.length), x ≤ a[j]) := by
  have h := bisectLoop_spec a x hs a.length 0 a.length (Nat.zero_le _) (le_refl _)
    (by omega) (by intro j hj _; omega) (by intro j hj hjlen; omega)
  exact ⟨h.2.1, h.2.2.1, h.2.2.2⟩

/-- On a sorted list, `bisect_left` returns the length exactly when
every key is strictly below `x`. -/
theorem bisect_left_eq_length (a : List ℚ) (x : ℚ) (hs : a.Sorted (· ≤ ·))
    (hall : ∀ j, (hj : j < a.length) → a[j] < x) :
    bisect_left a x = a.length := by
  obtain ⟨hle, _hbelow, habove⟩ := bisect_left_spec a x hs
  by_contra hne
  have hlt : bisect_left a x < a.length := lt_of_le_of_ne hle hne
  exact absurd (habove _ (le_refl _) hlt) (not_le.mpr (hall _ hlt))

/-- On a sorted nonempty list whose first key is at least `x`,
`bisect_left` returns 0. -/
theorem bisect_left_eq_zero (a : List ℚ) (x : ℚ) (hs : a.Sorted (· ≤ ·))
    (hne : a ≠ []) (h0 : x ≤ a.getD 0 0) :
    bisect_left a x = 0 := by
  obtain ⟨_hle, hbelow, _habove⟩ := bisect_left_spec a x hs
  by_contra hne0
  have h0len : 0 < a.length := List.length_pos.mpr hne
  have hlt := hbelow 0 (Nat.pos_of_ne_zero hne0) h0len
  rw [getD_eq_getElem_of_lt a 0 0 h0len] at h0
  exact absurd h0 (not_le.mpr hlt)

/-- The column slice has one entry per row. -/
theorem getCol_length (arr : List (List ℚ)) (col : Nat) (keys : List ℚ)
    (hk : getCol arr col = some keys) : keys.length = arr.length := by
  induction arr generalizing keys with
  | nil =>
    simp only [getCol, Option.some.injEq] at hk
    subst hk
    rfl
  | cons row rest ih =>
    unfold getCol at hk
    cases hrow : row[col]? with
    | none => rw [hrow] at hk; simp at hk
    | some v =>
      rw [hrow] at hk
      cases hrest : getCol rest col with
      | none => rw [hrest] at hk; simp at hk
      | some c =>
        rw [hrest] at hk
        simp only [Option.some.injEq] at hk
        subst hk
        simp [ih c hrest]

/-- Each entry of the column slice is the `col` entry of its row. -/
theorem getCol_row (arr : List (List ℚ)) (col : Nat) (keys : List ℚ)
    (hk : getCol arr col = some keys) (i : Nat) (hi : i < arr.length) :
    (arr.getD i [])[col]? = some (keys.getD i 0) := by
  induction arr generalizing keys i with
  | nil => simp at hi
  | cons row rest ih =>
    unfold getCol at hk
    cases hrow : row[col]? with
    | none => rw [hrow] at hk; simp at hk
    | some v =>
      rw [hrow] at hk
      cases hrest : getCol rest col with
      | none => rw [hrest] at hk; simp at hk
      | some c =>
        rw [hrest] at hk
        simp only [Option.some.injEq] at hk
        subst hk
        cases i with
        | zero => simpa using hrow
        | succ i => simpa using ih c hrest i (by simpa using hi)

/-- C6: on a table sorted ascending on `col`, `table_insertion_idx`
returns the smallest index whose key is at least `val` (left-biased
lower bound), and returns the row count when `val` is strictly greater
than every key of the column. -/
theorem table_insertion_idx_lower_bound (arr : List (List ℚ)) (col : Nat) (val : ℚ)
    (keys : List ℚ) (hk : getCol arr col = some keys) (hs : keys.Sorted (· ≤ ·)) :
    ∃ i, table_insertion_idx val arr col = some i ∧ i ≤ arr.length ∧
      (∀ j, (hj : j < keys.length) → (val ≤ keys[j] ↔ i ≤ j)) ∧
      ((∀ k ∈ keys, k < val) → i = arr.length) := by
  obtain ⟨hle, hbelow, habove⟩ := bisect_left_spec keys val hs
  have hlen := getCol_length arr col keys hk
  refine ⟨bisect_left keys val, ?_, by omega, ?_, ?_⟩
  · simp [table_insertion_idx, hk]
  · intro j hj
    constructor
    · intro hval
      by_contra hij
      exact absurd hval (not_le.mpr (hbelow j (by omega) hj))
    · intro hij
      exact habove j hij hj
  · intro hall
    rw [← hlen]
    apply bisect_left_eq_length keys val hs
    intro j hj
    exact hall _ (List.getElem_mem hj)

/-- C6 witness: the lower-bound property instantiated on the spec's
example table at `val = 5`. -/
theorem table_insertion_idx_lower_bound_witness :
    getCol [[0, 0], [10, 100], [20, 400]] 0 = some [0, 10, 20] ∧
      ([0, 10, 20] : List ℚ).Sorted (· ≤ ·) ∧
      (∃ i, table_insertion_idx 5 [[0, 0], [10, 100], [20, 400]] 0 = some i ∧
        i ≤ ([[0, 0], [10, 100], [20, 400]] : List (List ℚ)).length ∧
        (∀ j, (hj : j < ([0, 10, 20] : List ℚ).length) →
          ((5 : ℚ) ≤ ([0, 10, 20] : List ℚ)[j] ↔ i ≤ j)) ∧
        ((∀ k ∈ ([0, 10, 20] : List ℚ), k < 5) →
          i = ([[0, 0], [10, 100], [20, 400]] : List (List ℚ)).length)) := by
  exact ⟨rfl, by decide,
    table_insertion_idx_lower_bound [[0, 0], [10, 100], [20, 400]] 0 5 [0, 10, 20]
      rfl (by decide)⟩

/-- C7: under the precondition `xlow ≤ x ≤ xhigh` and `xlow ≠ xhigh`,
`interp_lin` returns exactly
`ylow + (x - xlow) * (yhigh - ylow) / (xhigh - xlow)`. -/
theorem interp_lin_formula (x xlow xhigh ylow yhigh : ℚ)
    (h1 : xlow ≤ x) (h2 : x ≤ xhigh) (h3 : xlow ≠ xhigh) :
    interp_lin x xlow xhigh ylow yhigh
      = Except.ok (ylow + (x - xlow) * (yhigh - ylow) / (xhigh - xlow)) := by
  have hg1 : ¬(x < xlow ∨ x > xhigh) := by push_neg; exact ⟨h1, h2⟩
  have hg2 : ¬(xhigh - xlow = 0) := sub_ne_zero.mpr (Ne.symm h3)
  unfold interp_lin
  rw [if_neg hg1, if_neg hg2]
  congr 1
  ring

/-- C7 witness: `interp_lin(5, 0, 10, 0, 100) = 50`. -/
theorem interp_lin_formula_witness :
    ((0 : ℚ) ≤ 5 ∧ (5 : ℚ) ≤ 10 ∧ (0 : ℚ) ≠ 10) ∧
      interp_lin 5 0 10 0 100 = Except.ok 50 := by
  refine ⟨⟨by norm_num, by norm_num, by norm_num⟩, ?_⟩
  rw [interp_lin_formula 5 0 10 0 100 (by norm_num) (by norm_num) (by norm_num)]
  norm_num

/-- The argsort indices are a permutation of the row-index range. -/
theorem argsort_perm (keys : List ℚ) :
    (argsort keys).Perm (List.range keys.length) :=
  List.mergeSort_perm _ _

/-- Argsort returns one index per key. -/
theorem argsort_length (keys : List ℚ) : (argsort keys).length = keys.length := by
  simpa using (argsort_perm keys).length_eq

/-- Every argsort index is a valid row index. -/
theorem argsort_mem_lt (keys : List ℚ) (i : Nat) (hi : i ∈ argsort keys) :
    i < keys.length := by
  simpa using (argsort_perm keys).mem_iff.mp hi

/-- The argsort indices are pairwise ordered by their keys. -/
theorem argsort_pairwise (keys : List ℚ) :
    (argsort keys).Pairwise fun i j => keys.getD i 0 ≤ keys.getD j 0 := by
  have h := @List.sorted_mergeSort Nat
    (fun i j => decide (keys.getD i 0 ≤ keys.getD j 0))
    (fun a b c h1 h2 => by
      simp only [decide_eq_true_eq] at h1 h2 ⊢
      exact le_trans h1 h2)
    (fun a b => by
      simp only [Bool.or_eq_true, decide_eq_true_eq]
      exact le_total _ _)
    (List.range keys.length)
  exact h.imp fun hab => by simpa using hab

/-- C8: the table returned by `sort_table_by_col` is ascending-sorted
on the sort column at every adjacent pair of rows. -/
theorem sort_table_by_col_sorted (t : List (List ℚ)) (col : Nat) (keys : List ℚ)
    (hk : getCol t col = some keys) :
    ∃ res, sort_table_by_col t col = some res ∧
      ∀ i, i + 1 < res.length →
        (res.getD i []).getD col 0 ≤ (res.getD (i + 1) []).getD col 0 := by
  refine ⟨(argsort keys).map fun k => t.getD k [], by simp [sort_table_by_col, hk], ?_⟩
  intro i hi
  have hplen : (argsort keys).length = keys.length := argsort_length keys
  have hi1 : i + 1 < (argsort keys).length := by simpa using hi
  have hi0 : i < (argsort keys).length := by omega
  have hlenkeys := getCol_length t col keys hk
  have hmap : ∀ j, (hj : j < (argsort keys).length) →
      (((argsort keys).map fun k => t.getD k []).getD j []) = t.getD (argsort keys)[j] [] := by
    intro j hj
    rw [List.getD_eq_getElem?_getD, List.getElem?_eq_getElem (by simpa using hj)]
    simp
  have hrow : ∀ j, (hj : j < (argsort keys).length) →
      (t.getD (argsort keys)[j] []).getD col 0 = keys.getD (argsort keys)[j] 0 := by
    intro j hj
    have hmem : (argsort keys)[j] < keys.length :=
      argsort_mem_lt keys _ (List.getElem_mem hj)
    have hcell := getCol_row t col keys hk (argsort keys)[j] (by omega)
    rw [List.getD_eq_getElem?_getD, hcell]
    rfl
  rw [hmap i hi0, hmap (i + 1) hi1, hrow i hi0, hrow (i + 1) hi1]
  exact List.pairwise_iff_getElem.mp (argsort_pairwise keys) i (i + 1) hi0 hi1 (by omega)

/-- C8 witness: sortedness of the output on a concrete unsorted table. -/
theorem sort_table_by_col_sorted_witness :
    getCol [[10, 1], [0, 2], [5, 3]] 0 = some [10, 0, 5] ∧
      (∃ res, sort_table_by_col [[10, 1], [0, 2], [5, 3]] 0 = some res ∧
        ∀ i, i + 1 < res.length →
          (res.getD i []).getD 0 0 ≤ (res.getD (i + 1) []).getD 0 0) :=
  ⟨rfl, sort_table_by_col_sorted [[10, 1], [0, 2], [5, 3]] 0 [10, 0, 5] rfl⟩

/-- Mapping row access over the full index range rebuilds the table. -/
theorem map_getD_range {α : Type} (l : List α) (d : α) :
    (List.range l.length).map (fun i => l.getD i d) = l := by
  induction l with
  | nil => rfl
  | cons a l ih =>
    rw [List.length_cons, List.range_succ_eq_map, List.map_cons, List.map_map]
    simp only [Function.comp_def, List.getD_cons_zero, List.getD_cons_succ]
    rw [ih]

/-- C10: the sorted table is a permutation of the input's rows: every
row appears with unchanged multiplicity, none dropped, duplicated or
modified. -/
theorem sort_table_by_col_permutation (t : List (List ℚ)) (col : Nat) (keys : List ℚ)
    (hk : getCol t col = some keys) :
    ∃ res, sort_table_by_col t col = some res ∧ res.Perm t := by
  refine ⟨(argsort keys).map fun k => t.getD k [], by simp [sort_table_by_col, hk], ?_⟩
  have h1 : ((argsort keys).map fun k => t.getD k []).Perm
      ((List.range keys.length).map fun k => t.getD k []) :=
    (argsort_perm keys).map _
  have h2 : (List.range keys.length).map (fun k => t.getD k []) = t := by
    rw [getCol_length t col keys hk]
    exact map_getD_range t []
  rw [h2] at h1
  exact h1

/-- C10 witness: row permutation on a concrete table with a duplicate
key. -/
theorem sort_table_by_col_permutation_witness :
    getCol [[10, 1], [0, 2], [10, 3]] 0 = some [10, 0, 10] ∧
      (∃ res, sort_table_by_col [[10, 1], [0, 2], [10, 3]] 0 = some res ∧
        res.Perm [[10, 1], [0, 2], [10, 3]]) :=
  ⟨rfl, sort_table_by_col_permutation [[10, 1], [0, 2], [10, 3]] 0 [10, 0, 10] rfl⟩

/-- A nonnegative Python index is plain list lookup at `toNat`. -/
theorem pyGet_nonneg {α : Type} (l : List α) (i : Int) (h0 : 0 ≤ i) :
    pyGet l i = l[i.toNat]? := by
  unfold pyGet pyIdx
  rw [if_pos h0]
  by_cases h : i < (l.length : Int)
  · rw [if_pos h]
    simp
  · rw [if_neg h]
    have hge : l.length ≤ i.toNat := by omega
    simp [List.getElem?_eq_none hge]

/-- Python index `-1` on a nonempty list reads the last element. -/
theorem pyGet_neg_one {α : Type} (l : List α) (hne : l ≠ []) :
    pyGet l (-1) = l[l.length - 1]? := by
  have hlen : 1 ≤ l.length := List.length_pos.mpr hne
  unfold pyGet pyIdx
  rw [if_neg (by omega), if_pos (by omega)]
  have hcast : ((-1 : Int) + (l.length : Int)).toNat = l.length - 1 := by omega
  simp [hcast]

/-- `arr[i][col]` for a valid nonnegative row index whose row holds
the column. -/
theorem cell?_coe_eq (arr : List (List ℚ)) (col : Nat) (i : Nat) (hi : i < arr.length)
    (ht : col < (arr.getD i []).length) :
    cell? arr (i : Int) col = some ((arr.getD i []).getD col 0) := by
  unfold cell?
  rw [pyGet_nonneg _ _ (by omega)]
  have hnat : ((i : Int)).toNat = i := by omega
  rw [hnat, List.getElem?_eq_getElem hi]
  simp only [Option.some_bind]
  rw [← getD_eq_getElem_of_lt arr i [] hi, List.getElem?_eq_getElem ht,
    getD_eq_getElem_of_lt _ col 0 ht]

/-- `arr[0][col]`. -/
theorem cell?_zero_eq (arr : List (List ℚ)) (col : Nat) (hne : arr ≠ [])
    (ht : col < (arr.getD 0 []).length) :
    cell? arr 0 col = some ((arr.getD 0 []).getD col 0) := by
  have := cell?_coe_eq arr col 0 (List.length_pos.mpr hne) ht
  simpa using this

/-- `arr[-1][col]` on a nonempty table reads the last row. -/
theorem cell?_last_eq (arr : List (List ℚ)) (col : Nat) (hne : arr ≠ [])
    (ht : col < (arr.getD (arr.length - 1) []).length) :
    cell? arr (-1) col = some ((arr.getD (arr.length - 1) []).getD col 0) := by
  have hlt : arr.length - 1 < arr.length := by
    have := List.length_pos.mpr hne
    omega
  unfold cell?
  rw [pyGet_neg_one arr hne, List.getElem?_eq_getElem hlt]
  simp only [Option.some_bind]
  rw [← getD_eq_getElem_of_lt arr (arr.length - 1) [] hlt, List.getElem?_eq_getElem ht,
    getD_eq_getElem_of_lt _ col 0 ht]

/-- `arr[row_count][col]` raises `IndexError`. -/
theorem cell?_length_none (arr : List (List ℚ)) (col : Nat) :
    cell? arr (arr.length : Int) col = none := by
  unfold cell?
  rw [pyGet_nonneg _ _ (by omega)]
  have hnat : ((arr.length : Int)).toNat = arr.length := by omega
  rw [hnat, List.getElem?_eq_none (le_refl _)]
  rfl

/-- The key cell of a row, through the column slice. -/
theorem getCol_getD (arr : List (List ℚ)) (col : Nat) (keys : List ℚ)
    (hk : getCol arr col = some keys) (i : Nat) (hi : i < arr.length) :
    (arr.getD i []).getD col 0 = keys.getD i 0 := by
  have h := getCol_row arr col keys hk i hi
  rw [List.getD_eq_getElem?_getD, h]
  rfl

/-- Every row of a sliceable column is wide enough. -/
theorem getCol_col_lt (arr : List (List ℚ)) (col : Nat) (keys : List ℚ)
    (hk : getCol arr col = some keys) (i : Nat) (hi : i < arr.length) :
    col < (arr.getD i []).length := by
  have h := getCol_row arr col keys hk i hi
  by_contra hcon
  rw [List.getElem?_eq_none (not_lt.mp hcon)] at h
  exact Option.noConfusion h

/-- C5 (amended): for a table sorted ascending on `sel_col` and a
`sel_val` strictly outside the key range, `table_interp_val` clamps to
the first (respectively last) row's target value when `permit_outside`
is true; when `permit_outside` is false it always fails, with the
interpolator's out-of-range `ValueError` (the error the design's
taxonomy calls `OutOfRange`) below the first key, but with an
`IndexError` from dereferencing row `ins_idx = row_count` above the
last key. -/
theorem table_interp_val_outside_spec (arr : List (List ℚ)) (target_col sel_col : Nat)
    (sel_val : ℚ) (keys : List ℚ)
    (hk : getCol arr sel_col = some keys) (hne : arr ≠ [])
    (hs : keys.Sorted (· ≤ ·))
    (htc : ∀ row ∈ arr, target_col < row.length) :
    (sel_val < keys.getD 0 0 →
      table_interp_val arr target_col sel_val sel_col true
          = Except.ok ((arr.getD 0 []).getD target_col 0) ∧
      table_interp_val arr target_col sel_val sel_col false
          = Except.error PyErr.valueError) ∧
    (keys.getD (arr.length - 1) 0 < sel_val →
      table_interp_val arr target_col sel_val sel_col true
          = Except.ok ((arr.getD (arr.length - 1) []).getD target_col 0) ∧
      table_interp_val arr target_col sel_val sel_col false
          = Except.error PyErr.indexError) := by
  have hlen := getCol_length arr sel_col keys hk
  have hpos : 0 < arr.length := List.length_pos.mpr hne
  have hkpos : 0 < keys.length := by omega
  have hknil : keys ≠ [] := List.length_pos.mp hkpos
  have hlast_lt : arr.length - 1 < arr.length := by omega
  have hklast_lt : arr.length - 1 < keys.length := by omega
  have hc0 : cell? arr 0 sel_col = some (keys.getD 0 0) := by
    rw [cell?_zero_eq arr sel_col hne (getCol_col_lt arr sel_col keys hk 0 hpos),
      getCol_getD arr sel_col keys hk 0 hpos]
  have hcl : cell? arr (-1) sel_col = some (keys.getD (arr.length - 1) 0) := by
    rw [cell?_last_eq arr sel_col hne
        (getCol_col_lt arr sel_col keys hk (arr.length - 1) hlast_lt),
      getCol_getD arr sel_col keys hk (arr.length - 1) hlast_lt]
  have ht0 : target_col < (arr.getD 0 []).length := by
    rw [getD_eq_getElem_of_lt arr 0 [] hpos]
    exact htc _ (List.getElem_mem hpos)
  have htl : target_col < (arr.getD (arr.length - 1) []).length := by
    rw [getD_eq_getElem_of_lt arr (arr.length - 1) [] hlast_lt]
    exact htc _ (List.getElem_mem hlast_lt)
  have hct0 := cell?_zero_eq arr target_col hne ht0
  have hctl := cell?_last_eq arr target_col hne htl
  have hfle : keys.getD 0 0 ≤ keys.getD (arr.length - 1) 0 := by
    rw [getD_eq_getElem_of_lt keys 0 0 hkpos,
      getD_eq_getElem_of_lt keys (arr.length - 1) 0 hklast_lt]
    exact sorted_getElem_le keys hs 0 (arr.length - 1) (by omega) hkpos hklast_lt
  have hfb : ¬(false = true) := by simp
  constructor
  · intro hbelow
    have hne0 : sel_val ≠ keys.getD 0 0 := ne_of_lt hbelow
    have hlast : sel_val < keys.getD (arr.length - 1) 0 := lt_of_lt_of_le hbelow hfle
    have hnel : sel_val ≠ keys.getD (arr.length - 1) 0 := ne_of_lt hlast
    constructor
    · unfold table_interp_val
      rw [if_pos rfl]
      simp only [hc0, obind_some]
      rw [if_pos hbelow]
      simp only [hct0, obind_some]
    · unfold table_interp_val
      rw [if_neg hfb]
      unfold table_interp_rest
      simp only [hc0, obind_some]
      rw [if_neg hne0]
      simp only [hcl, obind_some]
      rw [if_neg hnel]
      have hins : table_insertion_idx sel_val arr sel_col = some 0 := by
        unfold table_insertion_idx
        rw [hk]
        simp only [Option.map_some']
        rw [bisect_left_eq_zero keys sel_val hs hknil (le_of_lt hbelow)]
      simp only [hins, obind_some]
      have hm1 : ((0 : Nat) : Int) - 1 = -1 := by norm_num
      have hz : ((0 : Nat) : Int) = 0 := by norm_num
      rw [hm1, hz]
      simp only [hcl, hc0, hctl, hct0, obind_some]
      unfold interp_lin
      rw [if_pos (Or.inl hlast)]
  · intro habove
    have hgt0 : keys.getD 0 0 < sel_val := lt_of_le_of_lt hfle habove
    have hne0 : sel_val ≠ keys.getD 0 0 := ne_of_gt hgt0
    have hnel : sel_val ≠ keys.getD (arr.length - 1) 0 := ne_of_gt habove
    constructor
    · unfold table_interp_val
      rw [if_pos rfl]
      simp only [hc0, obind_some]
      rw [if_neg (not_lt.mpr (le_of_lt hgt0))]
      simp only [hcl, obind_some]
      rw [if_pos habove]
      simp only [hctl, obind_some]
    · unfold table_interp_val
      rw [if_neg hfb]
      unfold table_interp_rest
      simp only [hc0, obind_some]
      rw [if_neg hne0]
      simp only [hcl, obind_some]
      rw [if_neg hnel]
      have hall : ∀ j, (hj : j < keys.length) → keys[j] < sel_val := by
        intro j hj
        have h1 : keys[j] ≤ keys[keys.length - 1] :=
          sorted_getElem_le keys hs j (keys.length - 1) (by omega) hj (by omega)
        have h2 : keys[keys.length - 1] < sel_val := by
          rw [← getD_eq_getElem_of_lt keys (keys.length - 1) 0 (by omega)]
          have hidx2 : keys.length - 1 = arr.length - 1 := by omega
          rw [hidx2]
          exact habove
        exact lt_of_le_of_lt h1 h2
      have hins : table_insertion_idx sel_val arr sel_col = some arr.length := by
        unfold table_insertion_idx
        rw [hk]
        simp only [Option.map_some']
        rw [bisect_left_eq_length keys sel_val hs hall, hlen]
      simp only [hins, obind_some]
      have hcast : (arr.length : Int) - 1 = ((arr.length - 1 : Nat) : Int) := by omega
      rw [hcast,
        cell?_coe_eq arr sel_col (arr.length - 1) hlast_lt
          (getCol_col_lt arr sel_col keys hk (arr.length - 1) hlast_lt)]
      simp only [obind_some]
      rw [cell?_length_none]
      simp only [obind_none]

/-- C5 witness: the amended out-of-range behavior instantiated on the
spec's example table at `sel_val = -5` (below) and the hypotheses
discharged concretely. -/
theorem table_interp_val_outside_spec_witness :
    getCol [[0, 0], [10, 100], [20, 400]] 0 = some [0, 10, 20] ∧
      (([0, 10, 20] : List ℚ).Sorted (· ≤ ·)) ∧
      (((-5 : ℚ) < ([0, 10, 20] : List ℚ).getD 0 0 →
        table_interp_val [[0, 0], [10, 100], [20, 400]] 1 (-5) 0 true
            = Except.ok ((([[0, 0], [10, 100], [20, 400]] :
                List (List ℚ)).getD 0 []).getD 1 0) ∧
        table_interp_val [[0, 0], [10, 100], [20, 400]] 1 (-5) 0 false
            = Except.error PyErr.valueError) ∧
      (([0, 10, 20] : List ℚ).getD
            (([[0, 0], [10, 100], [20, 400]] : List (List ℚ)).length - 1) 0 < (-5 : ℚ) →
        table_interp_val [[0, 0], [10, 100], [20, 400]] 1 (-5) 0 true
            = Except.ok ((([[0, 0], [10, 100], [20, 400]] :
                List (List ℚ)).getD
                  (([[0, 0], [10, 100], [20, 400]] : List (List ℚ)).length - 1) []).getD 1 0) ∧
        table_interp_val [[0, 0], [10, 100], [20, 400]] 1 (-5) 0 false
            = Except.error PyErr.indexError)) :=
  ⟨rfl, by decide,
    table_interp_val_outside_spec [[0, 0], [10, 100], [20, 400]] 1 0 (-5) [0, 10, 20]
      rfl (by decide) (by decide) (by decide)⟩

end Pyems
